import Mathlib

/-!
# Verification of the HMM grid-localization engine

Shallow embedding of the repository's core modules:

* `Matrix.py` — a small dense-matrix layer over numpy (`Mat` below);
* `HMM.py` — construction of transition/emission models from a grid and the
  forward / backward / viterbi inference passes.

Real values are modelled by `ℚ` (the Python code works in IEEE doubles; every
constant of the program — 1/4, 0.88, 0.12 — is a decimal rational, and all the
properties checked here are exact-arithmetic properties).  `Matrix.normalize`
divides by a column sum; in `ℚ`, division by zero yields `0` where numpy yields
`nan` — every theorem below either guards the divisor or evaluates inputs whose
divisors are provably nonzero.

The grid collaborator (`Maze.py`) is not part of the sources; it is modelled
from the spec (see `Maze` below).  Python exceptions are modelled by
`Except String` results, and the in-place mutation of the engine object by
explicit state passing (`HMM` in, `HMM` out; on an error the returned state is
the state the Python object would be left in).
-/

/-- Dense matrix of rationals, `Matrix.py`'s representation: a `rows × cols`
array.  Entries are total functions; only indices below the bounds are ever
read by the embedded code. -/
structure Mat where
  rows : Nat
  cols : Nat
  entry : Nat → Nat → ℚ

/-- `Matrix.__setitem__`: `matrix[r, c] = v`. -/
def Mat.set (M : Mat) (r c : Nat) (v : ℚ) : Mat :=
  ⟨M.rows, M.cols, fun i j => if i = r ∧ j = c then v else M.entry i j⟩

/-- `Matrix.zeros` / `Matrix(rows, cols)`: numpy `np.zeros((rows, cols))`. -/
def Mat.zeros (r c : Nat) : Mat := ⟨r, c, fun _ _ => 0⟩

/-- `Matrix.ones`: numpy `np.ones((rows, cols))`. -/
def Mat.ones (r c : Nat) : Mat := ⟨r, c, fun _ _ => 1⟩

/-- `Matrix.transpose`: `np.transpose`. -/
def Mat.transpose (M : Mat) : Mat := ⟨M.cols, M.rows, fun i j => M.entry j i⟩

/-- numpy `np.dot` on two 2-D arrays: matrix product, `ValueError` when the
inner dimensions disagree. -/
def npDot (A B : Mat) : Except String Mat :=
  if A.cols = B.rows then
    .ok ⟨A.rows, B.cols, fun i j => ∑ k ∈ Finset.range A.cols, A.entry i k * B.entry k j⟩
  else .error "ValueError: shapes not aligned"

/-- `Matrix.__mul__` restricted to matrix operands: a `1×1` right operand is
dot-multiplied directly (the degenerate broadcast case), otherwise the shapes
are checked first and `np.dot` is taken. -/
def Mat.hmul (A B : Mat) : Except String Mat :=
  if B.cols = 1 ∧ B.rows = 1 then npDot A B
  else if A.cols ≠ B.rows then .error "ValueError: Matrices are not compatible for multiplication."
  else npDot A B

/-- `Matrix.multiply`: `np.multiply`, the elementwise product (both operands
have the same shape at every call site of the engine). -/
def Mat.elemMul (A B : Mat) : Mat :=
  ⟨A.rows, A.cols, fun i j => A.entry i j * B.entry i j⟩

/-- `Matrix.normalize(matrix, axis=0)`: in numpy,
`matrix.data / matrix.data.sum(axis=0, keepdims=True)` — every entry is divided
by the sum of its column. -/
def Mat.normalize0 (M : Mat) : Mat :=
  ⟨M.rows, M.cols, fun i j => M.entry i j / ∑ k ∈ Finset.range M.rows, M.entry k j⟩

/-- Sum of a column vector's entries (`matrix.data.sum(axis=0)` for an `N×1`
matrix). -/
def sumVec (M : Mat) : ℚ :=
  ∑ i ∈ Finset.range M.rows, M.entry i 0

/-- Sum of column `c` of a matrix read with `N` rows. -/
def colSumN (N : Nat) (T : Mat) (c : Nat) : ℚ :=
  ∑ i ∈ Finset.range N, T.entry i c

/-- The `N×N` identity matrix (what `np.identity(N)` returns when handed the
integer `N`). -/
def Mat.eye (n : Nat) : Mat :=
  ⟨n, n, fun i j => if i = j ∧ i < n then 1 else 0⟩

/-- numpy `np.identity` applied to a *tuple* argument: `np.identity` requires
an integer (`np.identity(n)` is `np.eye(n)`, whose shape argument must be an
int), so handing it the varargs tuple raises `TypeError` for every tuple. -/
def npIdentityTuple (dims : List Nat) : Except String Mat :=
  match dims with
  | _ => .error "TypeError: tuple object cannot be interpreted as an integer"

/-- `Matrix.identity(*dims)`: the body is `Matrix(0, 0, np.identity(dims))` —
the whole varargs tuple `dims` is passed to `np.identity`, not an unpacked
integer, so the call raises before any matrix is built. -/
def Matrix.identity (dims : List Nat) : Except String Mat :=
  npIdentityTuple dims

/-!
## The grid collaborator

Modelled from the spec: `Maze.py` is not under the sources; the spec describes
it as a `GridModel` exposing grid dimensions, a per-cell character (color label
or `'#'` for a wall, `None` off the grid), the set of color labels, the count
of traversable cells, and a bijection between traversable cells and dense
linear indices `0..total_positions` (walls carry no index).  The enumeration
below fixes that bijection as the scan order of `initialize_probabilities`
(`x` outer, `y` inner); every claim proved here is insensitive to the
particular order, only to its bijectivity.
-/
structure Maze where
  width : Nat
  height : Nat
  cell : Nat → Nat → Char

/-- `Maze.get_char(x, y)`: the character at a cell, `None` out of bounds. -/
def Maze.get_char (m : Maze) (x y : Int) : Option Char :=
  if 0 ≤ x ∧ x < (m.width : Int) ∧ 0 ≤ y ∧ y < (m.height : Int) then
    some (m.cell x.toNat y.toNat)
  else none

/-- The guard used throughout `HMM.py`: `char is not None and char != '#'`. -/
def Maze.traversableAt (m : Maze) (x y : Int) : Bool :=
  match m.get_char x y with
  | some c => c ≠ '#'
  | none => false

/-- All grid cells in the scan order of `initialize_probabilities`
(`for x in range(width): for y in range(height)`). -/
def Maze.allCells (m : Maze) : List (Int × Int) :=
  (List.range m.width).flatMap fun x =>
    (List.range m.height).map fun y => (Int.ofNat x, Int.ofNat y)

/-- The traversable cells, in scan order. -/
def Maze.positions (m : Maze) : List (Int × Int) :=
  m.allCells.filter fun p => m.traversableAt p.1 p.2

/-- `Maze.count_positions()`. -/
def Maze.count_positions (m : Maze) : Nat :=
  m.positions.length

/-- Position of the first occurrence of an element in a list (the element's
rank; length of the list when absent). -/
def idxIn (p : Int × Int) : List (Int × Int) → Nat
  | [] => 0
  | q :: l => if q = p then 0 else idxIn p l + 1

/-- `Maze.index(x, y)`: the dense linear index of a traversable cell. -/
def Maze.index (m : Maze) (x y : Int) : Nat :=
  idxIn (x, y) m.positions

/-- `Maze.colors`: the set of color labels occurring on traversable cells. -/
def Maze.colors (m : Maze) : List Char :=
  (m.positions.map fun p => (m.get_char p.1 p.2).getD '#').dedup

/-- `Maze.color_count`. -/
def Maze.color_count (m : Maze) : Nat :=
  m.colors.length

/-- The ground-truth color of the traversable state with linear index `s`. -/
def Maze.stateChar (m : Maze) (s : Nat) : Char :=
  match m.positions[s]? with
  | some p => (m.get_char p.1 p.2).getD '#'
  | none => '#'

/-!
## The HMM builder (`HMM.__init__` / `initialize_probabilities`)
-/

/-- `CORRECT_COLOR = .88`. -/
def CORRECT_COLOR : ℚ := 88 / 100

/-- `WRONG_COLOR = 1 - CORRECT_COLOR`. -/
def WRONG_COLOR : ℚ := 1 - CORRECT_COLOR

/-- `MOVE_PROBABILITY = 1/4`. -/
def MOVE_PROBABILITY : ℚ := 1 / 4

/-- `NORTH_PROBABILITY = SOUTH_PROBABILITY = EAST_PROBABILITY = WEST_PROBABILITY = MOVE_PROBABILITY`. -/
def NORTH_PROBABILITY : ℚ := MOVE_PROBABILITY

def SOUTH_PROBABILITY : ℚ := MOVE_PROBABILITY

def EAST_PROBABILITY : ℚ := MOVE_PROBABILITY

def WEST_PROBABILITY : ℚ := MOVE_PROBABILITY

/-- Update the matrix stored under one key of the sensor dictionary
(`self.sensor_probabilities[color][pos, pos] = v` reads the dict entry and
mutates that matrix in place; the key set never changes). -/
def updKey (S : Char → Option Mat) (k : Char) (f : Mat → Mat) : Char → Option Mat :=
  fun c => if c = k then (S c).map f else S c

/-- `HMM.compute_sensor_values(x, y)`: for a traversable cell, write the
diagonal sensor probability of every color at the cell's linear index. -/
def compute_sensor_values (m : Maze) (x y : Int) (S : Char → Option Mat) : Char → Option Mat :=
  let pos := m.index x y
  match m.get_char x y with
  | some c =>
      if c ≠ '#' then
        m.colors.foldl
          (fun S color =>
            updKey S color fun M =>
              M.set pos pos
                (if color = c then CORRECT_COLOR
                 else WRONG_COLOR / ((m.color_count : ℚ) - 1)))
          S
      else S
  | none => S

/-- `HMM.compute_transition_matrix(x, y)`: inspect the four cardinal
neighbors; a traversable neighbor receives that direction's probability at
`transitions[neighbor_index, current_index]`, a wall or out-of-bounds neighbor
accumulates it into `stay_put`, finally written to the diagonal. -/
def compute_transition_matrix (m : Maze) (x y : Int) (T : Mat) : Mat :=
  if m.traversableAt x y then
    let current_index := m.index x y
    let T1 := if m.traversableAt x (y - 1) then
                T.set (m.index x (y - 1)) current_index NORTH_PROBABILITY else T
    let s1 : ℚ := if m.traversableAt x (y - 1) then 0 else NORTH_PROBABILITY
    let T2 := if m.traversableAt x (y + 1) then
                T1.set (m.index x (y + 1)) current_index SOUTH_PROBABILITY else T1
    let s2 : ℚ := if m.traversableAt x (y + 1) then s1 else s1 + SOUTH_PROBABILITY
    let T3 := if m.traversableAt (x + 1) y then
                T2.set (m.index (x + 1) y) current_index EAST_PROBABILITY else T2
    let s3 : ℚ := if m.traversableAt (x + 1) y then s2 else s2 + EAST_PROBABILITY
    let T4 := if m.traversableAt (x - 1) y then
                T3.set (m.index (x - 1) y) current_index WEST_PROBABILITY else T3
    let s4 : ℚ := if m.traversableAt (x - 1) y then s3 else s3 + WEST_PROBABILITY
    T4.set current_index current_index s4
  else T

/-- The three model components accumulated by `initialize_probabilities`. -/
structure BuildState where
  sensors : Char → Option Mat
  transitions : Mat
  dist : Mat

/-- One iteration of the `initialize_probabilities` double loop: a traversable
cell contributes its sensor values, its transition column and its share
`1 / total_positions` of the initial distribution. -/
def initStep (m : Maze) (st : BuildState) (p : Int × Int) : BuildState :=
  if m.traversableAt p.1 p.2 then
    { sensors := compute_sensor_values m p.1 p.2 st.sensors
      transitions := compute_transition_matrix m p.1 p.2 st.transitions
      dist := st.dist.set (m.index p.1 p.2) 0 (1 / (m.count_positions : ℚ)) }
  else st

/-- The sensor dictionary as first created in `HMM.__init__`: one zero matrix
per color of the maze (any other key is absent — a lookup raises `KeyError`). -/
def initSensors (m : Maze) : Char → Option Mat :=
  fun c => if c ∈ m.colors then some (Mat.zeros m.count_positions m.count_positions) else none

/-- The engine state: model matrices plus the `StepSequence` (`self.steps`). -/
structure HMM where
  maze : Maze
  total_positions : Nat
  sensor_probabilities : Char → Option Mat
  transitions : Mat
  position_distribution : Mat
  steps : List Mat

/-- `HMM.__init__`: fails when the maze has no traversable position, otherwise
runs `initialize_probabilities` over every cell in scan order. -/
def HMM.build (m : Maze) : Except String HMM :=
  if m.count_positions = 0 then .error "ValueError: No possible positions in maze."
  else
    let st := m.allCells.foldl (initStep m)
      { sensors := initSensors m
        transitions := Mat.zeros m.count_positions m.count_positions
        dist := Mat.zeros m.count_positions 1 }
    .ok { maze := m
          total_positions := m.count_positions
          sensor_probabilities := st.sensors
          transitions := st.transitions
          position_distribution := st.dist
          steps := [] }

/-- Dictionary access `self.sensor_probabilities[color]`. -/
def lookupSensor (h : HMM) (c : Char) : Option Mat :=
  h.sensor_probabilities c

/-!
## Forward filtering (`HMM.forward`)

Observation labels are modelled post-`lower()` (the color alphabet of a maze
file is lowercase; `readings.lower()` is the identity on the labels used
here).
-/

/-- One belief update before normalization:
`sensor_probabilities[reading] * (transitions.transpose() * distribution)`.
Evaluation order follows Python: the dictionary lookup happens first. -/
def forwardUpdateRaw (h : HMM) (r : Char) (d : Mat) : Except String Mat :=
  match lookupSensor h r with
  | none => .error "KeyError"
  | some E =>
    match Mat.hmul h.transitions.transpose d with
    | .error e => .error e
    | .ok td =>
      match Mat.hmul E td with
      | .error e => .error e
      | .ok v => .ok v

/-- The loop of `forward`: each reading maps the current distribution through
`forwardUpdateRaw`, normalizes it in place and appends it; on an
(unreachable-after-validation) error the steps appended so far are kept, as
the Python object would keep them. -/
def forwardSteps (h : HMM) (d : Mat) (rs : List Char) : List Mat × Option String :=
  match rs with
  | [] => ([], none)
  | r :: rest =>
    match forwardUpdateRaw h r d with
    | .error e => ([], some e)
    | .ok v =>
      (Mat.normalize0 v :: (forwardSteps h (Mat.normalize0 v) rest).1,
        (forwardSteps h (Mat.normalize0 v) rest).2)

/-- `HMM.forward(readings)`: validate every label against the color alphabet
(raising before any state is touched), reset `self.steps`, store the copied
initial distribution at step 0, then run the update loop. -/
def forwardRun (h : HMM) (rs : List Char) : HMM × Option String :=
  if _hv : ∀ r ∈ rs, r ∈ h.maze.colors then
    let distribution := h.position_distribution
    let steps1 := if h.steps.isEmpty then h.steps else []
    ({ h with steps := (steps1 ++ [distribution]) ++ (forwardSteps h distribution rs).1 },
      (forwardSteps h distribution rs).2)
  else (h, some "ValueError: Invalid color: not in working set")

/-!
## Backward smoothing (`HMM.backward`)
-/

/-- The backward sweep, `for step in range(len(steps) - 1, 0, -1)`: overwrite
`steps[step]` with the normalized elementwise product with the backward
vector, then advance the vector through the emission and transition models.
The dictionary access `sensor_probabilities[readings[step - 1]]` is unguarded:
an unknown label raises `KeyError` there, after the overwrites of the later
steps already happened. -/
def backwardLoop (h : HMM) (rs : List Char) : Nat → List Mat → Mat → List Mat × Option String
  | 0, steps, _ => (steps, none)
  | step + 1, steps, vector =>
    let updated := Mat.normalize0 (Mat.elemMul (steps.getD (step + 1) (Mat.zeros 0 0)) vector)
    let steps1 := steps.set (step + 1) updated
    match rs[step]? with
    | none => (steps1, some "IndexError")
    | some r =>
      match lookupSensor h r with
      | none => (steps1, some "KeyError")
      | some E =>
        match Mat.hmul E vector with
        | .error e => (steps1, some e)
        | .ok ev =>
          match Mat.hmul h.transitions ev with
          | .error e => (steps1, some e)
          | .ok vector1 => backwardLoop h rs step steps1 vector1

/-- `HMM.backward(readings)`: start from a ones vector; when no forward pass
has been run yet, run it first; then sweep the stored steps from last to
first.  The pair returned is the engine state the Python object is left in
together with the raised error, if any. -/
def backwardRun (h : HMM) (rs : List Char) : HMM × Option String :=
  let vector := Mat.ones h.maze.count_positions 1
  if h.steps.isEmpty then
    match (forwardRun h rs).2 with
    | some e => ((forwardRun h rs).1, some e)
    | none =>
      ({ (forwardRun h rs).1 with
          steps := (backwardLoop (forwardRun h rs).1 rs
            ((forwardRun h rs).1.steps.length - 1) (forwardRun h rs).1.steps vector).1 },
        (backwardLoop (forwardRun h rs).1 rs
          ((forwardRun h rs).1.steps.length - 1) (forwardRun h rs).1.steps vector).2)
  else
    ({ h with steps := (backwardLoop h rs (h.steps.length - 1) h.steps vector).1 },
      (backwardLoop h rs (h.steps.length - 1) h.steps vector).2)

/-!
## Viterbi decoding (`HMM.viterbi`)
-/

/-- The initialization loop:
`delta[0, pos] = initial_probabilities[pos, 0] * transitions[pos, pos]`
over a `len(readings) × total_positions` zero table. -/
def viterbiInit (h : HMM) (L : Nat) : Mat :=
  (List.range h.total_positions).foldl
    (fun delta pos =>
      delta.set 0 pos (h.position_distribution.entry pos 0 * h.transitions.entry pos pos))
    (Mat.zeros L h.total_positions)

/-- The innermost loop over `prev` for one `(t, curr)` pair: on a strict
improvement, write the new score and backpointer and renormalize the whole
`delta` table along its columns (the `Matrix.normalize(delta)` call sits
inside the `if` branch in the source). -/
def viterbiInner (h : HMM) (t curr : Nat) (dp : Mat × Mat) : Mat × Mat :=
  (List.range h.total_positions).foldl
    (fun dp prev =>
      let v := dp.1.entry (t - 1) prev * h.transitions.entry prev curr
      if dp.1.entry t curr < v then
        (Mat.normalize0 (dp.1.set t curr v), dp.2.set t curr prev)
      else dp)
    dp

/-- The loop over `curr` for one time step `t ≥ 1`: after the `prev` scan the
score is multiplied by `emissions[readings[t]][curr, curr]` (an unguarded
dictionary access). -/
def viterbiStepT (h : HMM) (rs : List Char) (t : Nat) (dp : Mat × Mat) :
    Except String (Mat × Mat) :=
  (List.range h.total_positions).foldlM
    (fun dp curr => do
      let dp1 := viterbiInner h t curr dp
      match rs[t]? with
      | none => .error "IndexError"
      | some r =>
        match lookupSensor h r with
        | none => .error "KeyError"
        | some E =>
          .ok (dp1.1.set t curr (dp1.1.entry t curr * E.entry curr curr), dp1.2))
    dp

/-- The full table computation of `viterbi`: `delta = zeros(L, N)`,
`predecessors = copy(delta)`, the initialization loop, then
`for t in range(1, len(readings))`. -/
def viterbiTables (h : HMM) (rs : List Char) : Except String (Mat × Mat) :=
  let L := rs.length
  (List.range' 1 (L - 1)).foldlM (fun dp t => viterbiStepT h rs t dp)
    (viterbiInit h L, Mat.zeros L h.total_positions)

/-- Termination and backtracking of `viterbi`: scan the last `delta` row for a
strict maximum starting from 0, then walk the backpointers.  `path` is a numpy
float array; `int(path[index])` is modelled by `floor`/`toNat` (the stored
values are whole numbers). -/
def viterbiPathFrom (delta pred : Mat) (L N : Nat) : List ℚ :=
  let path0 : List ℚ := List.replicate L 0
  let scan :=
    (List.range N).foldl
      (fun (mp : ℚ × List ℚ) step =>
        if mp.1 < delta.entry (L - 1) step then
          (delta.entry (L - 1) step, mp.2.set (L - 1) (step : ℚ))
        else mp)
      (0, path0)
  (List.range' 1 (L - 1)).foldl
    (fun path t =>
      let index := L - t
      path.set (index - 1) (pred.entry index ((path.getD index 0).floor.toNat)))
    scan.2

/-- `HMM.viterbi(readings)`: computes the path from the tables.  The method
reads the engine state but never assigns any of its fields — in particular
`self.steps` is left exactly as the previous invocation left it — so the
engine state component of the result is the input state.  (On an empty
reading string the initialization loop itself raises `IndexError` on the
`0 × N` table.) -/
def viterbiRun (h : HMM) (rs : List Char) : HMM × Except String (List ℚ) :=
  (h,
    if rs.isEmpty then .error "IndexError"
    else
      match viterbiTables h rs with
      | .error e => .error e
      | .ok dp => .ok (viterbiPathFrom dp.1 dp.2 rs.length h.total_positions))

/-- Probe of the `delta` table produced by `viterbi` (0 when the computation
raised). -/
def deltaProbe (h : HMM) (rs : List Char) (t s : Nat) : ℚ :=
  match viterbiTables h rs with
  | .ok dp => dp.1.entry t s
  | .error _ => 0

/-- Written from the spec's words for claim C2 (the claimed recurrence, *not*
a translation of the code): `delta[t, curr]` is the maximum over `prev` of
`delta[t-1, prev] * transitions[prev, curr]`, multiplied afterwards by the
emission probability of the observed color at the current state; at `t = 0`
the spec's initialization `initial[s] * transitions[s, s]`. -/
def viterbiDeltaSpec (h : HMM) (rs : List Char) : Nat → Nat → ℚ
  | 0, s => h.position_distribution.entry s 0 * h.transitions.entry s s
  | t + 1, s =>
    (((List.range h.total_positions).map
        (fun prev => viterbiDeltaSpec h rs t prev * h.transitions.entry prev s)).foldl max 0) *
      (match rs[t + 1]? with
       | some r =>
         match lookupSensor h r with
         | some E => E.entry s s
         | none => 0
       | none => 0)

/-!
## A concrete two-cell corridor used by the witnesses

`mzRG` is the 2×1 maze whose cells read `r` and `g`: two traversable states,
state 0 colored `r`, state 1 colored `g`.
-/

def mzRG : Maze :=
  { width := 2, height := 1, cell := fun x _ => if x = 0 then 'r' else 'g' }

/-- Totalized constructor for concrete mazes whose `HMM.build` succeeds. -/
def buildD (m : Maze) : HMM :=
  match HMM.build m with
  | .ok h => h
  | .error _ =>
    { maze := m, total_positions := 0, sensor_probabilities := fun _ => none
      transitions := Mat.zeros 0 0, position_distribution := Mat.zeros 0 0, steps := [] }

/-- Engine state after `forward("r")` on the corridor. -/
def hmmAfterF1 : HMM := (forwardRun (buildD mzRG) ['r']).1

/-- Engine state after `forward("rg")` on the corridor. -/
def hmmAfterF2 : HMM := (forwardRun (buildD mzRG) ['r', 'g']).1

/-!
## Elementary facts about the matrix layer
-/

theorem Mat.set_rows (M : Mat) (r c : Nat) (v : ℚ) : (M.set r c v).rows = M.rows := rfl

theorem Mat.set_cols (M : Mat) (r c : Nat) (v : ℚ) : (M.set r c v).cols = M.cols := rfl

theorem Mat.entry_set (M : Mat) (r c i j : Nat) (v : ℚ) :
    (M.set r c v).entry i j = if i = r ∧ j = c then v else M.entry i j := rfl

theorem Mat.entry_set_ne_col (M : Mat) (r c i j : Nat) (v : ℚ) (hj : j ≠ c) :
    (M.set r c v).entry i j = M.entry i j := by
  simp [Mat.entry_set, hj]

theorem Mat.entry_set_ne_row (M : Mat) (r c i j : Nat) (v : ℚ) (hi : i ≠ r) :
    (M.set r c v).entry i j = M.entry i j := by
  simp [Mat.entry_set, hi]

theorem colSumN_set (N : Nat) (T : Mat) (r c : Nat) (v : ℚ) (hr : r < N) :
    colSumN N (T.set r c v) c = colSumN N T c - T.entry r c + v := by
  have hupd : ∀ i, (T.set r c v).entry i c = Function.update (fun i => T.entry i c) r v i := by
    intro i
    by_cases h : i = r <;> simp [Mat.entry_set, Function.update, h]
  unfold colSumN
  rw [Finset.sum_congr rfl fun i _ => hupd i,
    Finset.sum_update_of_mem (Finset.mem_range.mpr hr),
    Finset.sdiff_singleton_eq_erase,
    Finset.sum_erase_eq_sub (Finset.mem_range.mpr hr)]
  ring

theorem colSumN_set_ne (N : Nat) (T : Mat) (r c c1 : Nat) (v : ℚ) (hc : c1 ≠ c) :
    colSumN N (T.set r c1 v) c = colSumN N T c := by
  unfold colSumN
  exact Finset.sum_congr rfl fun i _ => Mat.entry_set_ne_col _ _ _ _ _ _ (by omega)

theorem sumVec_normalize0 (M : Mat) (h : sumVec M ≠ 0) :
    sumVec (Mat.normalize0 M) = 1 := by
  unfold sumVec Mat.normalize0 at *
  simp only
  rw [← Finset.sum_div, div_self h]

theorem normalize0_rows (M : Mat) : (Mat.normalize0 M).rows = M.rows := rfl

theorem normalize0_cols (M : Mat) : (Mat.normalize0 M).cols = M.cols := rfl

/-!
## Generic fold lemmas
-/

/-- A guarded fold is a fold over the filtered list. -/
theorem foldl_guard_filter {α β : Type} (p : α → Bool) (f : β → α → β) :
    ∀ (l : List α) (b : β),
      l.foldl (fun b a => if p a then f b a else b) b = (l.filter p).foldl f b := by
  intro l
  induction l with
  | nil => intro b; rfl
  | cons a l ih =>
    intro b
    by_cases h : p a <;> simp [List.filter, h, ih]

/-- Writing `M[0, pos] := f pos` for every `pos` of a list: the written row. -/
theorem foldl_set_row0_entry (f : Nat → ℚ) :
    ∀ (l : List Nat) (M : Mat) (j : Nat),
      ((l.foldl (fun D pos => D.set 0 pos (f pos)) M)).entry 0 j =
        if j ∈ l then f j else M.entry 0 j := by
  intro l
  induction l with
  | nil => intro M j; simp
  | cons p l ih =>
    intro M j
    by_cases hj : j ∈ l
    · simp [List.foldl, ih, hj]
    · by_cases hjp : j = p <;>
        simp [List.foldl, ih, hj, hjp, Mat.entry_set]

/-- Writing `M[r pos, 0] := v` over a list of rows: the written column. -/
theorem foldl_set_col0_entry (r : Nat → Nat) (v : ℚ) :
    ∀ (l : List Nat) (M : Mat) (i : Nat),
      ((l.foldl (fun D pos => D.set (r pos) 0 v) M)).entry i 0 =
        if i ∈ l.map r then v else M.entry i 0 := by
  intro l
  induction l with
  | nil => intro M i; simp
  | cons p l ih =>
    intro M i
    by_cases hi : i ∈ l.map r
    · simp [List.foldl, ih, hi]
    · by_cases hip : i = r p <;>
        simp [List.foldl, ih, hi, hip, Mat.entry_set]

/-- Folding `updKey` over a list of distinct keys updates each key once. -/
theorem foldl_updKey (g : Char → Mat → Mat) :
    ∀ (l : List Char) (S : Char → Option Mat) (c : Char), l.Nodup →
      (l.foldl (fun S k => updKey S k (g k)) S) c =
        if c ∈ l then (S c).map (g c) else S c := by
  intro l
  induction l with
  | nil => intro S c _; simp
  | cons k l ih =>
    intro S c hnd
    rcases List.nodup_cons.mp hnd with ⟨hk, hl⟩
    by_cases hc : c = k
    · subst hc
      have : c ∉ l := hk
      simp [List.foldl, ih _ _ hl, this, updKey]
    · by_cases hcl : c ∈ l <;> simp [List.foldl, ih _ _ hl, hcl, hc, updKey]

/-!
## Facts about the grid enumeration
-/

theorem idxIn_lt (p : Int × Int) : ∀ (l : List (Int × Int)), p ∈ l → idxIn p l < l.length := by
  intro l
  induction l with
  | nil => intro h; cases h
  | cons q l ih =>
    intro h
    by_cases hq : q = p
    · simp [idxIn, hq]
    · have hp : p ∈ l := by
        rcases List.mem_cons.mp h with h1 | h1
        · exact absurd h1.symm hq
        · exact h1
      simpa [idxIn, hq] using ih hp

theorem idxIn_getElem : ∀ (l : List (Int × Int)), l.Nodup → ∀ (k : Nat) (hk : k < l.length),
    idxIn l[k] l = k := by
  intro l
  induction l with
  | nil => intro _ k hk; simp at hk
  | cons q l ih =>
    intro hnd k hk
    rcases List.nodup_cons.mp hnd with ⟨hq, hl⟩
    match k with
    | 0 => simp [idxIn]
    | k + 1 =>
      have hk1 : k < l.length := by simpa using hk
      have hne : q ≠ l[k] := fun h => hq (h ▸ List.getElem_mem hk1)
      simp [idxIn, hne, ih hl k hk1]

theorem get_idxIn (p : Int × Int) : ∀ (l : List (Int × Int)) (h : p ∈ l),
    l.get ⟨idxIn p l, idxIn_lt p l h⟩ = p := by
  intro l
  induction l with
  | nil => intro h; cases h
  | cons q l ih =>
    intro h
    by_cases hq : q = p
    · simp [idxIn, hq]
    · have hp : p ∈ l := by
        rcases List.mem_cons.mp h with h1 | h1
        · exact absurd h1.symm hq
        · exact h1
      have hrec := ih hp
      simp only [idxIn, if_neg hq]
      simpa using hrec

theorem Maze.allCells_nodup (m : Maze) : m.allCells.Nodup := by
  unfold Maze.allCells
  rw [List.nodup_flatMap]
  constructor
  · intro x _
    refine List.Nodup.map ?_ (List.nodup_range _)
    intro a b hab
    have := congrArg Prod.snd hab
    simp only [Int.ofNat_eq_coe] at this
    exact_mod_cast this
  · have hp : (List.range m.width).Pairwise (· < ·) := List.pairwise_lt_range _
    refine hp.imp ?_
    intro a b hab q hqa hqb
    simp only [List.mem_map] at hqa hqb
    rcases hqa with ⟨ya, _, rfl⟩
    rcases hqb with ⟨yb, _, hq⟩
    have : (b : Int) = (a : Int) := congrArg Prod.fst hq
    omega

theorem Maze.positions_nodup (m : Maze) : m.positions.Nodup :=
  (Maze.allCells_nodup m).filter _

theorem Maze.mem_positions_of_traversable (m : Maze) (x y : Int)
    (h : m.traversableAt x y) : ((x, y) : Int × Int) ∈ m.positions := by
  have hb : 0 ≤ x ∧ x < (m.width : Int) ∧ 0 ≤ y ∧ y < (m.height : Int) := by
    by_contra hc
    unfold Maze.traversableAt Maze.get_char at h
    rw [if_neg hc] at h
    simp at h
  have hx : x.toNat < m.width := by omega
  have hy : y.toNat < m.height := by omega
  have hmem : ((x, y) : Int × Int) ∈ m.allCells := by
    unfold Maze.allCells
    rw [List.mem_flatMap]
    refine ⟨x.toNat, List.mem_range.mpr hx, List.mem_map.mpr ⟨y.toNat, List.mem_range.mpr hy, ?_⟩⟩
    simp only [Prod.mk.injEq, Int.ofNat_eq_coe]
    omega
  exact List.mem_filter.mpr ⟨hmem, h⟩

theorem Maze.traversable_of_mem_positions (m : Maze) (p : Int × Int)
    (h : p ∈ m.positions) : m.traversableAt p.1 p.2 :=
  (List.mem_filter.mp h).2

theorem Maze.index_lt (m : Maze) (x y : Int)
    (h : ((x, y) : Int × Int) ∈ m.positions) : m.index x y < m.count_positions :=
  idxIn_lt _ _ h

theorem Maze.index_getElem (m : Maze) (k : Nat) (hk : k < m.positions.length) :
    m.index (m.positions[k]).1 (m.positions[k]).2 = k := by
  unfold Maze.index
  simpa using idxIn_getElem m.positions m.positions_nodup k hk

/-- Distinct traversable cells have distinct linear indices. -/
theorem Maze.index_inj (m : Maze) (p q : Int × Int)
    (hp : p ∈ m.positions) (hq : q ∈ m.positions)
    (h : m.index p.1 p.2 = m.index q.1 q.2) : p = q := by
  have h1 := get_idxIn p m.positions hp
  have h2 := get_idxIn q m.positions hq
  unfold Maze.index at h
  rw [← h1, ← h2]
  congr 1
  simpa using h

/-!
## Decomposing the builder fold
-/

/-- The body of `initStep` on a traversable cell. -/
def initStepT (m : Maze) (st : BuildState) (p : Int × Int) : BuildState :=
  { sensors := compute_sensor_values m p.1 p.2 st.sensors
    transitions := compute_transition_matrix m p.1 p.2 st.transitions
    dist := st.dist.set (m.index p.1 p.2) 0 (1 / (m.count_positions : ℚ)) }

theorem initStep_eq (m : Maze) (st : BuildState) (p : Int × Int) :
    initStep m st p = if m.traversableAt p.1 p.2 then initStepT m st p else st := rfl

/-- The transition matrix accumulated over a list of cells. -/
def foldTrans (m : Maze) (l : List (Int × Int)) (T : Mat) : Mat :=
  l.foldl (fun T p => compute_transition_matrix m p.1 p.2 T) T

/-- The sensor dictionary accumulated over a list of cells. -/
def foldSensors (m : Maze) (l : List (Int × Int)) (S : Char → Option Mat) : Char → Option Mat :=
  l.foldl (fun S p => compute_sensor_values m p.1 p.2 S) S

/-- The initial distribution accumulated over a list of cells. -/
def foldDist (m : Maze) (l : List (Int × Int)) (D : Mat) : Mat :=
  l.foldl (fun D p => D.set (m.index p.1 p.2) 0 (1 / (m.count_positions : ℚ))) D

theorem foldl_initStepT (m : Maze) :
    ∀ (l : List (Int × Int)) (st : BuildState),
      l.foldl (initStepT m) st =
        { sensors := foldSensors m l st.sensors
          transitions := foldTrans m l st.transitions
          dist := foldDist m l st.dist } := by
  intro l
  induction l with
  | nil => intro st; rfl
  | cons p l ih => intro st; simp [List.foldl, ih, initStepT, foldSensors, foldTrans, foldDist]

theorem build_components (m : Maze) (h : HMM) (hb : HMM.build m = .ok h) :
    h.maze = m ∧ h.total_positions = m.count_positions ∧
      h.sensor_probabilities = foldSensors m m.positions (initSensors m) ∧
      h.transitions = foldTrans m m.positions (Mat.zeros m.count_positions m.count_positions) ∧
      h.position_distribution = foldDist m m.positions (Mat.zeros m.count_positions 1) ∧
      h.steps = [] := by
  unfold HMM.build at hb
  split at hb
  · cases hb
  · have hguard : m.allCells.foldl (initStep m)
        { sensors := initSensors m
          transitions := Mat.zeros m.count_positions m.count_positions
          dist := Mat.zeros m.count_positions 1 } =
      m.positions.foldl (initStepT m)
        { sensors := initSensors m
          transitions := Mat.zeros m.count_positions m.count_positions
          dist := Mat.zeros m.count_positions 1 } := by
      have : (initStep m) = fun st p =>
          if m.traversableAt p.1 p.2 then initStepT m st p else st := rfl
      rw [this, foldl_guard_filter (fun p => m.traversableAt p.1 p.2) (initStepT m)]
      rfl
    rw [hguard, foldl_initStepT] at hb
    cases hb
    exact ⟨rfl, rfl, rfl, rfl, rfl, rfl⟩

/-!
## The transition column of a single cell
-/

/-- The four cardinal neighbors of a cell, in the order the builder visits
them. -/
def dirCells (x y : Int) : List (Int × Int) :=
  [(x, y - 1), (x, y + 1), (x + 1, y), (x - 1, y)]

/-- The traversable cardinal neighbors of a cell. -/
def travNbrs (m : Maze) (x y : Int) : List (Int × Int) :=
  (dirCells x y).filter fun p => m.traversableAt p.1 p.2

theorem dirCells_nodup (x y : Int) : (dirCells x y).Nodup := by
  simp [dirCells, Prod.ext_iff]
  omega

theorem mem_dirCells_ne (x y : Int) (q : Int × Int) (h : q ∈ dirCells x y) : q ≠ (x, y) := by
  simp only [dirCells, List.mem_cons, List.mem_singleton] at h
  rcases h with rfl | rfl | rfl | rfl | h
  all_goals first
    | (intro hq; rw [Prod.ext_iff] at hq; omega)
    | cases h

/-- `compute_transition_matrix` on a traversable cell, reshaped: one write of
`MOVE_PROBABILITY` per traversable neighbor, then the accumulated stay-put
mass `(4 - #traversable neighbors) * MOVE_PROBABILITY` on the diagonal. -/
theorem ctm_eq_fold (m : Maze) (x y : Int) (T : Mat) (hxy : m.traversableAt x y) :
    compute_transition_matrix m x y T =
      ((travNbrs m x y).foldl
          (fun T p => T.set (m.index p.1 p.2) (m.index x y) MOVE_PROBABILITY) T).set
        (m.index x y) (m.index x y)
        (((4 : ℚ) - (travNbrs m x y).length) * MOVE_PROBABILITY) := by
  unfold compute_transition_matrix
  rw [if_pos hxy]
  by_cases h1 : m.traversableAt x (y - 1) <;>
    by_cases h2 : m.traversableAt x (y + 1) <;>
      by_cases h3 : m.traversableAt (x + 1) y <;>
        by_cases h4 : m.traversableAt (x - 1) y <;>
          · simp only [travNbrs, dirCells, List.filter, h1, h2, h3, h4, List.foldl,
              NORTH_PROBABILITY, SOUTH_PROBABILITY, EAST_PROBABILITY, WEST_PROBABILITY,
              if_pos, if_neg, Bool.false_eq_true, decide_True, decide_False, List.length_cons,
              List.length_nil]
            norm_num [MOVE_PROBABILITY]

/-- Writing `MOVE_PROBABILITY` at distinct in-range zero rows of one column:
the column sum grows by one quarter per write, and rows outside the list are
untouched. -/
theorem trans_writes (N ci : Nat) :
    ∀ (l : List Nat) (T : Mat), l.Nodup →
      (∀ r ∈ l, r < N ∧ T.entry r ci = 0) →
      colSumN N (l.foldl (fun T r => T.set r ci MOVE_PROBABILITY) T) ci
          = colSumN N T ci + l.length * MOVE_PROBABILITY
        ∧ ∀ i, i ∉ l →
          (l.foldl (fun T r => T.set r ci MOVE_PROBABILITY) T).entry i ci = T.entry i ci := by
  intro l
  induction l with
  | nil => intro T _ _; simp
  | cons r l ih =>
    intro T hnd hr
    rcases List.nodup_cons.mp hnd with ⟨hrl, hl⟩
    have hrN : r < N := (hr r (List.mem_cons_self r l)).1
    have hr0 : T.entry r ci = 0 := (hr r (List.mem_cons_self r l)).2
    have hrest : ∀ q ∈ l, q < N ∧ (T.set r ci MOVE_PROBABILITY).entry q ci = 0 := by
      intro q hq
      refine ⟨(hr q (List.mem_cons_of_mem r hq)).1, ?_⟩
      rw [Mat.entry_set_ne_row]
      · exact (hr q (List.mem_cons_of_mem r hq)).2
      · intro hqr; exact hrl (hqr ▸ hq)
    rcases ih (T.set r ci MOVE_PROBABILITY) hl hrest with ⟨hsum, hpres⟩
    constructor
    · rw [List.foldl_cons, hsum, colSumN_set N T r ci MOVE_PROBABILITY hrN, hr0]
      simp only [List.length_cons]
      push_cast
      ring
    · intro i hi
      rw [List.foldl_cons, hpres i (fun h => hi (List.mem_cons_of_mem r h)),
        Mat.entry_set_ne_row]
      intro hir
      exact hi (hir ▸ List.mem_cons_self r l)

/-- Entries outside the cell's own column are untouched by
`compute_transition_matrix`. -/
theorem ctm_entry_ne (m : Maze) (x y : Int) (T : Mat) (i j : Nat)
    (hj : j ≠ m.index x y) :
    (compute_transition_matrix m x y T).entry i j = T.entry i j := by
  unfold compute_transition_matrix
  split_ifs <;> simp [Mat.entry_set, hj]

theorem foldl_set_over_cells (m : Maze) (ci : Nat) :
    ∀ (l : List (Int × Int)) (T : Mat),
      l.foldl (fun T p => T.set (m.index p.1 p.2) ci MOVE_PROBABILITY) T
        = (l.map fun p => m.index p.1 p.2).foldl
            (fun T r => T.set r ci MOVE_PROBABILITY) T := by
  intro l
  induction l with
  | nil => intro T; rfl
  | cons p l ih => intro T; simp [List.foldl, ih]

/-- The key column fact: on a traversable cell whose column is still all-zero,
the builder writes a column summing to exactly 1. -/
theorem ctm_colsum (m : Maze) (x y : Int) (T : Mat) (hxy : m.traversableAt x y)
    (hz : ∀ i, T.entry i (m.index x y) = 0) :
    colSumN m.count_positions (compute_transition_matrix m x y T) (m.index x y) = 1 := by
  set N := m.count_positions with hN
  set ci := m.index x y with hci
  have hmem : ((x, y) : Int × Int) ∈ m.positions := m.mem_positions_of_traversable x y hxy
  have hciN : ci < N := m.index_lt x y hmem
  -- facts about the traversable-neighbor rows
  have hnbr_mem : ∀ q ∈ travNbrs m x y, q ∈ m.positions := by
    intro q hq
    have := (List.mem_filter.mp hq).2
    have hq2 : m.traversableAt q.1 q.2 := by simpa using this
    simpa using m.mem_positions_of_traversable q.1 q.2 hq2
  have hrows_lt : ∀ q ∈ travNbrs m x y, m.index q.1 q.2 < N := fun q hq =>
    m.index_lt q.1 q.2 (hnbr_mem q hq)
  have hrows_ne : ∀ q ∈ travNbrs m x y, m.index q.1 q.2 ≠ ci := by
    intro q hq hcontra
    have hqd : q ∈ dirCells x y := (List.mem_filter.mp hq).1
    have := m.index_inj q (x, y) (hnbr_mem q hq) hmem (by simpa using hcontra)
    exact mem_dirCells_ne x y q hqd this
  have hrows_nodup : ((travNbrs m x y).map fun p => m.index p.1 p.2).Nodup := by
    refine List.Nodup.map_on ?_ ((dirCells_nodup x y).filter _)
    intro p hp q hq hpq
    exact m.index_inj p q (hnbr_mem p hp) (hnbr_mem q hq) hpq
  -- reshape and apply the write lemma
  rw [ctm_eq_fold m x y T hxy, ← hci, foldl_set_over_cells m ci]
  set rows := (travNbrs m x y).map fun p => m.index p.1 p.2 with hrows
  have hfacts : ∀ r ∈ rows, r < N ∧ T.entry r ci = 0 := by
    intro r hrr
    rcases List.mem_map.mp hrr with ⟨q, hq, rfl⟩
    exact ⟨hrows_lt q hq, hz _⟩
  rcases trans_writes N ci rows T hrows_nodup hfacts with ⟨hsum, hpres⟩
  have hci_not : ci ∉ rows := by
    intro hmemci
    rcases List.mem_map.mp hmemci with ⟨q, hq, hqe⟩
    exact hrows_ne q hq hqe
  have hTz : colSumN N T ci = 0 := by
    unfold colSumN
    exact Finset.sum_eq_zero fun i _ => hz i
  rw [colSumN_set N _ ci ci _ hciN, hsum, hpres ci hci_not, hz ci, hTz]
  have hlen : rows.length = (travNbrs m x y).length := List.length_map _ _
  rw [hlen]
  unfold MOVE_PROBABILITY
  ring

/-- Cells whose own column differs from `j` leave column `j` untouched. -/
theorem foldTrans_col_preserved (m : Maze) :
    ∀ (l : List (Int × Int)) (T : Mat) (j : Nat),
      (∀ q ∈ l, m.index q.1 q.2 ≠ j) →
      ∀ i, (foldTrans m l T).entry i j = T.entry i j := by
  intro l
  induction l with
  | nil => intro T j _ i; rfl
  | cons p l ih =>
    intro T j hne i
    unfold foldTrans at *
    rw [List.foldl_cons, ih _ j (fun q hq => hne q (List.mem_cons_of_mem p hq)) i,
      ctm_entry_ne]
    exact fun h => hne p (List.mem_cons_self p l) h.symm

/-- Members of a prefix of the position list have index below the prefix
length; members of the suffix after position `s` have index above `s`. -/
theorem index_of_mem_take (m : Maze) (s : Nat) (q : Int × Int)
    (h : q ∈ m.positions.take s) : m.index q.1 q.2 < s := by
  rcases List.mem_iff_getElem.mp h with ⟨k, hk, hq⟩
  have hk2 := hk
  rw [List.length_take] at hk2
  have hks : k < s := lt_of_lt_of_le hk2 (min_le_left _ _)
  have hkl : k < m.positions.length := lt_of_lt_of_le hk2 (min_le_right _ _)
  rw [List.getElem_take] at hq
  have hidx := m.index_getElem k hkl
  rw [hq] at hidx
  omega

theorem index_of_mem_drop (m : Maze) (s : Nat) (q : Int × Int)
    (h : q ∈ m.positions.drop (s + 1)) : s < m.index q.1 q.2 := by
  rcases List.mem_iff_getElem.mp h with ⟨k, hk, hq⟩
  have hk2 := hk
  rw [List.length_drop] at hk2
  have hkl : s + 1 + k < m.positions.length := by omega
  rw [List.getElem_drop] at hq
  have hidx := m.index_getElem (s + 1 + k) hkl
  rw [hq] at hidx
  omega

/-- C1 (claim): for every grid accepted by the builder (at least one
traversable cell) and every traversable state `s`, the four directional
probabilities written for `s`'s traversable neighbors plus the stay-put mass
at `transitions[s, s]` — that is, column `s` of the transition matrix — sum to
exactly 1. -/
theorem transition_columns_sum_one (m : Maze) (h : HMM)
    (hb : HMM.build m = .ok h) (s : Nat) (hs : s < h.total_positions) :
    colSumN h.total_positions h.transitions s = 1 := by
  obtain ⟨_, htp, _, htr, _, _⟩ := build_components m h hb
  rw [htp] at hs ⊢
  rw [htr]
  have hsl : s < m.positions.length := hs
  have hsplit := List.take_append_drop s m.positions
  have hdrop := List.drop_eq_getElem_cons hsl
  have hfold : foldTrans m m.positions (Mat.zeros m.count_positions m.count_positions)
      = foldTrans m (m.positions.drop (s + 1))
          (compute_transition_matrix m (m.positions[s]).1 (m.positions[s]).2
            (foldTrans m (m.positions.take s)
              (Mat.zeros m.count_positions m.count_positions))) := by
    conv_lhs => rw [← hsplit, hdrop]
    unfold foldTrans
    rw [List.foldl_append, List.foldl_cons]
  rw [hfold]
  have hptrav : m.traversableAt (m.positions[s]).1 (m.positions[s]).2 := by
    exact m.traversable_of_mem_positions _ (List.getElem_mem hsl)
  have hpidx : m.index (m.positions[s]).1 (m.positions[s]).2 = s := m.index_getElem s hsl
  have hmid_zero : ∀ i, (foldTrans m (m.positions.take s)
      (Mat.zeros m.count_positions m.count_positions)).entry i s = 0 := by
    intro i
    rw [foldTrans_col_preserved m _ _ s
      (fun q hq => Nat.ne_of_lt (index_of_mem_take m s q hq)) i]
    rfl
  have hcell := ctm_colsum m (m.positions[s]).1 (m.positions[s]).2 _ hptrav
    (by rw [hpidx]; exact hmid_zero)
  rw [hpidx] at hcell
  have hpreserve := foldTrans_col_preserved m (m.positions.drop (s + 1))
    (compute_transition_matrix m (m.positions[s]).1 (m.positions[s]).2
      (foldTrans m (m.positions.take s) (Mat.zeros m.count_positions m.count_positions))) s
    (fun q hq => (index_of_mem_drop m s q hq).ne')
  unfold colSumN at hcell ⊢
  rw [Finset.sum_congr rfl fun i _ => hpreserve i]
  exact hcell

/-- Witness for C1: the two-cell corridor; column 0 of its transition matrix
sums to 1. -/
theorem transition_columns_sum_one_witness :
    0 < (buildD mzRG).total_positions ∧
      colSumN (buildD mzRG).total_positions (buildD mzRG).transitions 0 = 1 :=
  ⟨by decide, transition_columns_sum_one mzRG (buildD mzRG) rfl 0 (by decide)⟩

/-!
## The emission model
-/

/-- The sensor value the builder writes for color key `c` at state `i`. -/
def sval (m : Maze) (c : Char) (i : Nat) : ℚ :=
  if c = m.stateChar i then CORRECT_COLOR else WRONG_COLOR / ((m.color_count : ℚ) - 1)

theorem stateChar_eq (m : Maze) (k : Nat) (hk : k < m.positions.length) :
    m.get_char (m.positions[k]).1 (m.positions[k]).2 = some (m.stateChar k) ∧
      m.stateChar k ≠ '#' := by
  have htrav := m.traversable_of_mem_positions _ (List.getElem_mem hk)
  unfold Maze.traversableAt at htrav
  have hchar : m.stateChar k
      = (m.get_char (m.positions[k]).1 (m.positions[k]).2).getD '#' := by
    unfold Maze.stateChar
    rw [List.getElem?_eq_getElem hk]
  rcases hgc : m.get_char (m.positions[k]).1 (m.positions[k]).2 with _ | cp
  · rw [hgc] at htrav; simp at htrav
  · rw [hgc] at htrav hchar
    simp only [Option.getD_some] at hchar
    rw [hchar]
    exact ⟨rfl, by simpa using htrav⟩

/-- Invariant of the sensor fold over the first `k` traversable cells: keys
outside the alphabet stay absent; each color's matrix is `N × N`, zero off the
written diagonal prefix. -/
theorem foldSensors_take (m : Maze) :
    ∀ (k : Nat), k ≤ m.positions.length → ∀ c : Char,
      (c ∉ m.colors →
        foldSensors m (m.positions.take k) (initSensors m) c = none) ∧
      (c ∈ m.colors → ∃ M,
        foldSensors m (m.positions.take k) (initSensors m) c = some M ∧
        M.rows = m.count_positions ∧ M.cols = m.count_positions ∧
        ∀ i j, M.entry i j = if i = j ∧ i < k then sval m c i else 0) := by
  intro k
  induction k with
  | zero =>
    intro _ c
    constructor
    · intro hc
      simp [foldSensors, initSensors, hc]
    · intro hc
      refine ⟨Mat.zeros m.count_positions m.count_positions, ?_, rfl, rfl, ?_⟩
      · simp [foldSensors, initSensors, hc]
      · intro i j; simp [Mat.zeros]
  | succ k ih =>
    intro hk c
    have hkl : k < m.positions.length := hk
    have htake : m.positions.take (k + 1)
        = m.positions.take k ++ [m.positions[k]] := by
      rw [List.take_succ, List.getElem?_eq_getElem hkl]
      rfl
    have happ : foldSensors m (m.positions.take (k + 1)) (initSensors m)
        = compute_sensor_values m (m.positions[k]).1 (m.positions[k]).2
            (foldSensors m (m.positions.take k) (initSensors m)) := by
      rw [htake]
      unfold foldSensors
      rw [List.foldl_append]
      rfl
    obtain ⟨hgc, hcp⟩ := stateChar_eq m k hkl
    have hpos : m.index (m.positions[k]).1 (m.positions[k]).2 = k := m.index_getElem k hkl
    have hcsv : ∀ (S : Char → Option Mat) (c1 : Char),
        compute_sensor_values m (m.positions[k]).1 (m.positions[k]).2 S c1 =
          if c1 ∈ m.colors then
            (S c1).map fun M => M.set k k (if c1 = m.stateChar k then CORRECT_COLOR
              else WRONG_COLOR / ((m.color_count : ℚ) - 1))
          else S c1 := by
      intro S c1
      have h1 : compute_sensor_values m (m.positions[k]).1 (m.positions[k]).2 S
          = m.colors.foldl (fun S color => updKey S color fun M =>
              M.set k k (if color = m.stateChar k then CORRECT_COLOR
                else WRONG_COLOR / ((m.color_count : ℚ) - 1))) S := by
        unfold compute_sensor_values
        rw [hgc]
        dsimp only
        rw [if_pos hcp]
        simp only [hpos]
      rw [h1]
      exact foldl_updKey
        (fun color M => M.set k k (if color = m.stateChar k then CORRECT_COLOR
          else WRONG_COLOR / ((m.color_count : ℚ) - 1)))
        m.colors S c1 (List.nodup_dedup _)
    constructor
    · intro hc
      rw [happ, hcsv, if_neg hc]
      exact (ih (Nat.le_of_lt hkl) c).1 hc
    · intro hc
      obtain ⟨M, hM, hMr, hMc, hMe⟩ := (ih (Nat.le_of_lt hkl) c).2 hc
      refine ⟨M.set k k (if c = m.stateChar k then CORRECT_COLOR
        else WRONG_COLOR / ((m.color_count : ℚ) - 1)), ?_, by simp [Mat.set_rows, hMr],
        by simp [Mat.set_cols, hMc], ?_⟩
      · rw [happ, hcsv, if_pos hc, hM]
        rfl
      · intro i j
        rw [Mat.entry_set, hMe i j]
        by_cases hik : i = k ∧ j = k
        · obtain ⟨rfl, rfl⟩ := hik
          simp [sval]
        · by_cases hij : i = j ∧ i < k + 1
          · obtain ⟨rfl, hlt⟩ := hij
            have hlt2 : i < k := by
              rcases Nat.lt_succ_iff_lt_or_eq.mp hlt with h1 | h1
              · exact h1
              · exact absurd ⟨h1, h1⟩ hik
            have hik2 : i ≠ k := Nat.ne_of_lt hlt2
            simp [hik2, hlt2, hlt]
          · have : ¬(i = j ∧ i < k) := fun ⟨h1, h2⟩ => hij ⟨h1, Nat.lt_succ_of_lt h2⟩
            simp [hik, hij, this]

/-- The sensor dictionary of a built engine, characterized. -/
theorem sensors_built (m : Maze) (h : HMM) (hb : HMM.build m = .ok h) (c : Char) :
    (c ∉ m.colors → lookupSensor h c = none) ∧
    (c ∈ m.colors → ∃ M, lookupSensor h c = some M ∧
      M.rows = m.count_positions ∧ M.cols = m.count_positions ∧
      ∀ i j, M.entry i j = if i = j ∧ i < m.count_positions then sval m c i else 0) := by
  obtain ⟨_, _, hsens, _, _, _⟩ := build_components m h hb
  have := foldSensors_take m m.positions.length le_rfl c
  rw [List.take_length] at this
  unfold lookupSensor
  rw [hsens]
  exact this

/-- C3 (claim): after the builder runs, for every color `c` of the alphabet
and every traversable state `s`, the diagonal emission entry is
`CORRECT_COLOR` when `s`'s ground-truth color is `c` and
`WRONG_COLOR / (color_count - 1)` otherwise, and every off-diagonal entry of
the emission matrix is 0. -/
theorem emission_model_correct (m : Maze) (h : HMM) (hb : HMM.build m = .ok h)
    (c : Char) (hc : c ∈ m.colors) (s : Nat) (hs : s < h.total_positions) :
    ∃ M, lookupSensor h c = some M ∧
      M.entry s s = (if m.stateChar s = c then CORRECT_COLOR
        else WRONG_COLOR / ((m.color_count : ℚ) - 1)) ∧
      ∀ i j, i ≠ j → M.entry i j = 0 := by
  obtain ⟨_, htp, _, _, _, _⟩ := build_components m h hb
  rw [htp] at hs
  obtain ⟨M, hM, _, _, hMe⟩ := (sensors_built m h hb c).2 hc
  refine ⟨M, hM, ?_, ?_⟩
  · rw [hMe s s]
    by_cases hcs : c = m.stateChar s
    · simp [hs, sval, hcs]
    · have hcs2 : ¬ m.stateChar s = c := fun h1 => hcs h1.symm
      simp [hs, sval, hcs, hcs2]
  · intro i j hij
    rw [hMe i j]
    simp [hij]

/-- Witness for C3: on the corridor, the emission matrix for color `r` has
the right diagonal value at state 0 and zero off the diagonal. -/
theorem emission_model_correct_witness :
    ∃ M, lookupSensor (buildD mzRG) 'r' = some M ∧
      M.entry 0 0 = (if mzRG.stateChar 0 = 'r' then CORRECT_COLOR
        else WRONG_COLOR / ((mzRG.color_count : ℚ) - 1)) ∧
      ∀ i j, i ≠ j → M.entry i j = 0 :=
  emission_model_correct mzRG (buildD mzRG) rfl 'r' (by decide) 0 (by decide)

/-!
## The initial distribution
-/

theorem foldDist_take (m : Maze) :
    ∀ (k : Nat), k ≤ m.positions.length → ∀ i,
      (foldDist m (m.positions.take k) (Mat.zeros m.count_positions 1)).entry i 0
        = if i < k then 1 / (m.count_positions : ℚ) else 0 := by
  intro k
  induction k with
  | zero => intro _ i; simp [foldDist, Mat.zeros]
  | succ k ih =>
    intro hk i
    have hkl : k < m.positions.length := hk
    have htake : m.positions.take (k + 1)
        = m.positions.take k ++ [m.positions[k]] := by
      rw [List.take_succ, List.getElem?_eq_getElem hkl]
      rfl
    have hpos : m.index (m.positions[k]).1 (m.positions[k]).2 = k := m.index_getElem k hkl
    have happ : foldDist m (m.positions.take (k + 1)) (Mat.zeros m.count_positions 1)
        = (foldDist m (m.positions.take k) (Mat.zeros m.count_positions 1)).set k 0
            (1 / (m.count_positions : ℚ)) := by
      rw [htake]
      unfold foldDist
      rw [List.foldl_append]
      simp [hpos]
    rw [happ, Mat.entry_set, ih (Nat.le_of_lt hkl) i]
    by_cases hik : i = k
    · simp [hik]
    · simp only [hik, false_and, if_false]
      by_cases hlt : i < k
      · have h2 : i < k + 1 := by omega
        simp [hlt, h2]
      · have h2 : ¬ i < k + 1 := by omega
        simp [hlt, h2]

/-- The built initial distribution is uniform over the traversable states. -/
theorem dist_uniform (m : Maze) (h : HMM) (hb : HMM.build m = .ok h) :
    ∀ i, h.position_distribution.entry i 0
      = if i < m.count_positions then 1 / (m.count_positions : ℚ) else 0 := by
  obtain ⟨_, _, _, _, hdist, _⟩ := build_components m h hb
  intro i
  rw [hdist]
  have := foldDist_take m m.positions.length le_rfl i
  rw [List.take_length] at this
  exact this

theorem foldDist_dims (m : Maze) :
    ∀ (l : List (Int × Int)) (D : Mat),
      (foldDist m l D).rows = D.rows ∧ (foldDist m l D).cols = D.cols := by
  intro l
  induction l with
  | nil => intro D; exact ⟨rfl, rfl⟩
  | cons p l ih => intro D; simpa [foldDist, List.foldl] using ih _

theorem dist_dims (m : Maze) (h : HMM) (hb : HMM.build m = .ok h) :
    h.position_distribution.rows = m.count_positions ∧ h.position_distribution.cols = 1 := by
  obtain ⟨_, _, _, _, hdist, _⟩ := build_components m h hb
  rw [hdist]
  exact foldDist_dims m m.positions _

/-!
## Forward: shape and success lemmas
-/

theorem hmul_ok (A B : Mat) (hAB : A.cols = B.rows) :
    ∃ v, Mat.hmul A B = .ok v ∧ v.rows = A.rows ∧ v.cols = B.cols := by
  refine ⟨⟨A.rows, B.cols,
    fun i j => ∑ k ∈ Finset.range A.cols, A.entry i k * B.entry k j⟩, ?_, rfl, rfl⟩
  have hdot : npDot A B = .ok ⟨A.rows, B.cols,
      fun i j => ∑ k ∈ Finset.range A.cols, A.entry i k * B.entry k j⟩ := by
    unfold npDot
    rw [if_pos hAB]
  unfold Mat.hmul
  split_ifs with h1 h2
  · exact hdot
  · exact absurd hAB h2
  · exact hdot

theorem ctm_dims (m : Maze) (x y : Int) (T : Mat) :
    (compute_transition_matrix m x y T).rows = T.rows ∧
      (compute_transition_matrix m x y T).cols = T.cols := by
  simp only [compute_transition_matrix]
  split_ifs <;> exact ⟨rfl, rfl⟩

theorem foldTrans_dims (m : Maze) :
    ∀ (l : List (Int × Int)) (T : Mat),
      (foldTrans m l T).rows = T.rows ∧ (foldTrans m l T).cols = T.cols := by
  intro l
  induction l with
  | nil => intro T; exact ⟨rfl, rfl⟩
  | cons p l ih =>
    intro T
    have h1 := ctm_dims m p.1 p.2 T
    have h2 := ih (compute_transition_matrix m p.1 p.2 T)
    unfold foldTrans at *
    rw [List.foldl_cons]
    exact ⟨h2.1.trans h1.1, h2.2.trans h1.2⟩

theorem trans_dims (m : Maze) (h : HMM) (hb : HMM.build m = .ok h) :
    h.transitions.rows = m.count_positions ∧ h.transitions.cols = m.count_positions := by
  obtain ⟨_, _, _, htr, _, _⟩ := build_components m h hb
  rw [htr]
  exact foldTrans_dims m m.positions _

theorem forwardUpdateRaw_ok (h : HMM) (r : Char) (d : Mat) (N : Nat) (E : Mat)
    (hE : lookupSensor h r = some E) (hEr : E.rows = N) (hEc : E.cols = N)
    (hTr : h.transitions.rows = N) (hTc : h.transitions.cols = N)
    (hdr : d.rows = N) (hdc : d.cols = 1) :
    ∃ v, forwardUpdateRaw h r d = .ok v ∧ v.rows = N ∧ v.cols = 1 := by
  obtain ⟨td, htd, htdr, htdc⟩ := hmul_ok h.transitions.transpose d
    (by simp [Mat.transpose, hTr, hdr])
  obtain ⟨v, hv, hvr, hvc⟩ := hmul_ok E td (by rw [hEc, htdr]; simp [Mat.transpose, hTc])
  refine ⟨v, ?_, by rw [hvr, hEr], by rw [hvc, htdc, hdc]⟩
  unfold forwardUpdateRaw
  rw [hE]
  dsimp only
  rw [htd]
  dsimp only
  rw [hv]

theorem forwardSteps_ok (m : Maze) (h : HMM) (hb : HMM.build m = .ok h) :
    ∀ (rs : List Char) (d : Mat), (∀ r ∈ rs, r ∈ m.colors) →
      d.rows = m.count_positions → d.cols = 1 →
      (forwardSteps h d rs).2 = none ∧ (forwardSteps h d rs).1.length = rs.length := by
  intro rs
  induction rs with
  | nil => intro d _ _ _; exact ⟨rfl, rfl⟩
  | cons r rest ih =>
    intro d hval hdr hdc
    obtain ⟨E, hE, hEr, hEc, _⟩ := (sensors_built m h hb r).2 (hval r (List.mem_cons_self r rest))
    obtain ⟨hTr, hTc⟩ := trans_dims m h hb
    obtain ⟨v, hv, hvr, hvc⟩ := forwardUpdateRaw_ok h r d m.count_positions E hE hEr hEc hTr hTc hdr hdc
    have ih2 := ih (Mat.normalize0 v) (fun q hq => hval q (List.mem_cons_of_mem r hq))
      (by rw [normalize0_rows, hvr]) (by rw [normalize0_cols, hvc])
    unfold forwardSteps
    rw [hv]
    simpa using ih2

/-- The reset invariably leaves an empty prior sequence. -/
theorem steps1_nil (h : HMM) : (if h.steps.isEmpty then h.steps else []) = [] := by
  split
  · exact List.isEmpty_iff.mp (by assumption)
  · rfl

/-- C4 (claim): forward on a sequence of known labels succeeds and produces a
StepSequence of length `|observations| + 1` whose entry at step 0 is the
initial distribution, which the builder made uniform over the traversable
states; in particular the empty sequence gives a StepSequence of length 1. -/
theorem forward_length_and_prior (m : Maze) (h : HMM) (hb : HMM.build m = .ok h)
    (rs : List Char) (hval : ∀ r ∈ rs, r ∈ m.colors) :
    (forwardRun h rs).2 = none ∧
      (forwardRun h rs).1.steps.length = rs.length + 1 ∧
      (forwardRun h rs).1.steps[0]? = some h.position_distribution ∧
      ∀ i, i < h.total_positions →
        h.position_distribution.entry i 0 = 1 / (h.total_positions : ℚ) := by
  obtain ⟨hmz, htp, _, _, _, _⟩ := build_components m h hb
  have hval2 : ∀ r ∈ rs, r ∈ h.maze.colors := by rw [hmz]; exact hval
  obtain ⟨herr, hlen⟩ := forwardSteps_ok m h hb rs h.position_distribution hval
    (dist_dims m h hb).1 (dist_dims m h hb).2
  unfold forwardRun
  rw [dif_pos hval2, steps1_nil h]
  refine ⟨herr, ?_, ?_, ?_⟩
  · simp [hlen]
  · simp
  · intro i hi
    rw [htp] at hi ⊢
    rw [dist_uniform m h hb i, if_pos hi]

/-- Witness for C4, the empty-observation case singled out by the claim:
`forward("")` on the corridor yields a StepSequence of length 1 whose only
entry is the uniform initial distribution. -/
theorem forward_length_and_prior_witness :
    (forwardRun (buildD mzRG) []).2 = none ∧
      (forwardRun (buildD mzRG) []).1.steps.length = 0 + 1 ∧
      (forwardRun (buildD mzRG) []).1.steps[0]? = some (buildD mzRG).position_distribution ∧
      ∀ i, i < (buildD mzRG).total_positions →
        (buildD mzRG).position_distribution.entry i 0
          = 1 / ((buildD mzRG).total_positions : ℚ) :=
  forward_length_and_prior mzRG (buildD mzRG) rfl [] (by simp)

/-!
## Forward: per-step normalization (C5) and validation (C6)
-/

theorem forwardSteps_entry (h : HMM) :
    ∀ (rs : List Char) (d : Mat) (t : Nat) (s : Mat),
      (forwardSteps h d rs).1[t]? = some s →
      ∃ v, s = Mat.normalize0 v ∧ (sumVec v ≠ 0 → sumVec s = 1) := by
  intro rs
  induction rs with
  | nil => intro d t s hget; simp [forwardSteps] at hget
  | cons r rest ih =>
    intro d t s hget
    unfold forwardSteps at hget
    cases hu : forwardUpdateRaw h r d with
    | error e => rw [hu] at hget; simp at hget
    | ok v =>
      rw [hu] at hget
      dsimp only at hget
      match t with
      | 0 =>
        rw [List.getElem?_cons_zero] at hget
        cases hget
        exact ⟨v, rfl, fun hv => sumVec_normalize0 v hv⟩
      | t + 1 =>
        rw [List.getElem?_cons_succ] at hget
        exact ih (Mat.normalize0 v) t s hget

/-- C5 (claim): for a valid observation sequence, each belief stored by a
forward update is the normalization of the raw updated vector, and whenever
that vector has nonzero total mass the stored belief sums to exactly 1 (in
particular within any floating-point tolerance). -/
theorem forward_beliefs_sum_one (h : HMM) (rs : List Char)
    (hval : ∀ r ∈ rs, r ∈ h.maze.colors) (t : Nat) (s : Mat)
    (hget : (forwardRun h rs).1.steps[t + 1]? = some s) :
    ∃ v, s = Mat.normalize0 v ∧ (sumVec v ≠ 0 → sumVec s = 1) := by
  unfold forwardRun at hget
  rw [dif_pos hval, steps1_nil h] at hget
  simp only [List.nil_append, List.singleton_append, List.getElem?_cons_succ] at hget
  exact forwardSteps_entry h rs h.position_distribution t s hget

/-- Witness for C5: the first stored belief of `forward("r")` on the corridor
sums to 1. -/
theorem forward_beliefs_sum_one_witness :
    ∃ s, (forwardRun (buildD mzRG) ['r']).1.steps[1]? = some s ∧
      (∃ v, s = Mat.normalize0 v ∧ (sumVec v ≠ 0 → sumVec s = 1)) ∧ sumVec s = 1 := by
  refine ⟨_, rfl, forward_beliefs_sum_one (buildD mzRG) ['r'] (by decide) 0 _ rfl, ?_⟩
  with_unfolding_all decide

/-- C6 (claim): when some observation label lies outside the color alphabet,
forward reports the error and the engine state — the stored StepSequence, the
transition and emission models and the initial distribution — is exactly the
state before the call: the validation loop raises before any step is computed
or stored. -/
theorem forward_unknown_observation (h : HMM) (rs : List Char)
    (hbad : ∃ r ∈ rs, r ∉ h.maze.colors) :
    (forwardRun h rs).1 = h ∧ (forwardRun h rs).2.isSome = true := by
  have hneg : ¬ ∀ r ∈ rs, r ∈ h.maze.colors := by
    rcases hbad with ⟨r, hr, hnr⟩
    exact fun hall => hnr (hall r hr)
  unfold forwardRun
  rw [dif_neg hneg]
  exact ⟨rfl, rfl⟩

/-- Witness for C6: `forward("x")` on the corridor errors out and leaves the
engine exactly as built. -/
theorem forward_unknown_observation_witness :
    (forwardRun (buildD mzRG) ['x']).1 = buildD mzRG ∧
      (forwardRun (buildD mzRG) ['x']).2.isSome = true :=
  forward_unknown_observation (buildD mzRG) ['x'] ⟨'x', by decide, by decide⟩

/-!
## Viterbi initialization (C7)
-/

/-- C7 (claim): for a non-empty observation sequence, the time-0 entry of the
`delta` table as `viterbi` initializes it is
`initial_probability[state] * transitions[state, state]` for every traversable
state — the self-transition entry, not the emission probability of the first
observation. -/
theorem viterbi_time0_self_transition (h : HMM) (rs : List Char) (_hrs : rs ≠ [])
    (pos : Nat) (hpos : pos < h.total_positions) :
    (viterbiInit h rs.length).entry 0 pos
      = h.position_distribution.entry pos 0 * h.transitions.entry pos pos := by
  unfold viterbiInit
  rw [foldl_set_row0_entry
    (fun pos => h.position_distribution.entry pos 0 * h.transitions.entry pos pos)
    (List.range h.total_positions) (Mat.zeros rs.length h.total_positions) pos]
  rw [if_pos (List.mem_range.mpr hpos)]

/-- Witness for C7: on the corridor with the single observation `g`, the
time-0 entry for state 0 is `(1/2) * (3/4) = 3/8`. -/
theorem viterbi_time0_self_transition_witness :
    (viterbiInit (buildD mzRG) [('g' : Char)].length).entry 0 0
        = (buildD mzRG).position_distribution.entry 0 0
          * (buildD mzRG).transitions.entry 0 0 ∧
      (viterbiInit (buildD mzRG) [('g' : Char)].length).entry 0 0 = 3 / 8 :=
  ⟨viterbi_time0_self_transition (buildD mzRG) ['g'] (by simp) 0 (by decide),
    by with_unfolding_all decide⟩

/-!
## Viterbi recurrence (C2)
-/

set_option maxRecDepth 8000 in
/-- C2 (the code evaluated against the claimed recurrence): on the two-cell
corridor with readings `rg`, the delta table the code produces has
`delta[1, 0] = 9/109` — the `Matrix.normalize(delta)` call inside the update
branch renormalizes every column of the whole table at each improvement,
rescaling row 0 as well — while the claimed recurrence
`max(delta[0, prev] * transitions[prev, 0]) * emission` gives
`max(9/32, 3/32) * 0.12 = 27/800`. -/
theorem viterbi_recurrence_diverges :
    deltaProbe (buildD mzRG) ['r', 'g'] 1 0 = 9 / 109 ∧
      viterbiDeltaSpec (buildD mzRG) ['r', 'g'] 1 0 = 27 / 800 ∧
      (9 / 109 : ℚ) ≠ 27 / 800 := by
  refine ⟨?_, ?_, by norm_num⟩ <;> with_unfolding_all decide

/-!
## The identity constructor (C9)
-/

/-- C9 (the code evaluated at the failing input): `Matrix.identity(3)` raises
`TypeError` — `np.identity` receives the varargs tuple `(3,)` rather than the
integer 3 — so no identity matrix is ever produced and `M * identity(N)`
cannot be evaluated for any `M`. -/
theorem identity_constructor_raises :
    Matrix.identity [3]
      = Except.error "TypeError: tuple object cannot be interpreted as an integer" := rfl

/-!
## Backward with an unknown label (C10)
-/

/-- C10 (claim): invoking backward on an engine already holding a StepSequence
with an observation sequence containing an unknown label fails with a lookup
error only partway through the sweep: here, after `forward("rg")` filled three
steps, `backward("xg")` overwrites `steps[2]` and `steps[1]` before the
dictionary access for the label `x` raises `KeyError`, leaving `steps[1]`
modified while `steps[0]` is exactly the prior belief — the stored sequence is
left partially modified. -/
theorem backward_partial_mutation :
    (backwardRun hmmAfterF2 ['x', 'g']).2 = some "KeyError" ∧
      (backwardRun hmmAfterF2 ['x', 'g']).1.steps.length = 3 ∧
      ((backwardRun hmmAfterF2 ['x', 'g']).1.steps.getD 0 (Mat.zeros 0 0)).entry 0 0
        = (hmmAfterF2.steps.getD 0 (Mat.zeros 0 0)).entry 0 0 ∧
      ((backwardRun hmmAfterF2 ['x', 'g']).1.steps.getD 0 (Mat.zeros 0 0)).entry 1 0
        = (hmmAfterF2.steps.getD 0 (Mat.zeros 0 0)).entry 1 0 ∧
      ((backwardRun hmmAfterF2 ['x', 'g']).1.steps.getD 1 (Mat.zeros 0 0)).entry 0 0
        ≠ (hmmAfterF2.steps.getD 1 (Mat.zeros 0 0)).entry 0 0 := by
  refine ⟨?_, ?_, ?_, ?_, ?_⟩ <;> with_unfolding_all decide

/-!
## The StepSequence across invocations (C8)
-/

theorem forwardSteps_steps_irrelevant (h : HMM) :
    ∀ (rs : List Char) (d : Mat),
      forwardSteps { h with steps := [] } d rs = forwardSteps h d rs := by
  intro rs
  induction rs with
  | nil => intro d; rfl
  | cons r rest ih =>
    intro d
    unfold forwardSteps
    have hupd : forwardUpdateRaw { h with steps := [] } r d = forwardUpdateRaw h r d := rfl
    rw [hupd]
    cases forwardUpdateRaw h r d with
    | error e => rfl
    | ok v => simp [ih]

theorem backwardLoop_get0 (h : HMM) (rs : List Char) :
    ∀ (k : Nat) (steps : List Mat) (vec : Mat),
      (backwardLoop h rs k steps vec).1[0]? = steps[0]? := by
  intro k
  induction k with
  | zero => intro steps vec; rfl
  | succ k ih =>
    intro steps vec
    have h0 : ∀ u : Mat, (steps.set (k + 1) u)[0]? = steps[0]? := by
      intro u
      exact List.getElem?_set_ne (by omega)
    unfold backwardLoop
    rcases hr : rs[k]? with _ | r
    · exact h0 _
    · dsimp only
      rcases hE : lookupSensor h r with _ | E
      · exact h0 _
      · dsimp only
        rcases hm1 : Mat.hmul E vec with e | ev
        · exact h0 _
        · dsimp only
          rcases hm2 : Mat.hmul h.transitions ev with e | vec1
          · exact h0 _
          · dsimp only
            rw [ih _ vec1, h0]

/-- C8 amended: `forward` creates the StepSequence afresh on every invocation
with valid labels — its result does not depend on the previously stored
sequence; `viterbi` leaves the stored sequence untouched, whatever it was; and
`backward` overwrites the existing sequence in place, never writing index 0,
so entry 0 of the prior sequence is left standing. -/
theorem step_sequence_lifecycle (h : HMM) (rs : List Char) :
    ((∀ r ∈ rs, r ∈ h.maze.colors) →
        forwardRun h rs = forwardRun { h with steps := [] } rs) ∧
      (viterbiRun h rs).1 = h ∧
      (h.steps ≠ [] → (backwardRun h rs).1.steps[0]? = h.steps[0]?) := by
  refine ⟨?_, rfl, ?_⟩
  · intro hv
    have hv2 : ∀ r ∈ rs, r ∈ ({ h with steps := [] } : HMM).maze.colors := hv
    unfold forwardRun
    rw [dif_pos hv, dif_pos hv2, steps1_nil h, steps1_nil]
    dsimp only
    rw [forwardSteps_steps_irrelevant h rs h.position_distribution]
  · intro hne
    have hemp : h.steps.isEmpty = false := by
      cases hs : h.steps with
      | nil => exact absurd hs hne
      | cons a l => rfl
    unfold backwardRun
    rw [hemp]
    simp only [Bool.false_eq_true, if_false]
    exact backwardLoop_get0 h rs (h.steps.length - 1) h.steps _

/-- Witness for C8's amended claim, at an engine that already holds a
sequence. -/
theorem step_sequence_lifecycle_witness :
    forwardRun hmmAfterF1 ['g'] = forwardRun { hmmAfterF1 with steps := [] } ['g'] ∧
      (viterbiRun hmmAfterF1 ['g']).1 = hmmAfterF1 ∧
      (backwardRun hmmAfterF1 ['g']).1.steps[0]? = hmmAfterF1.steps[0]? :=
  ⟨(step_sequence_lifecycle hmmAfterF1 ['g']).1 (by decide),
    (step_sequence_lifecycle hmmAfterF1 ['g']).2.1,
    (step_sequence_lifecycle hmmAfterF1 ['g']).2.2
      (List.length_pos.mp (by decide))⟩

/-- C8 counterexample: the claim says every `forward`/`backward`/`viterbi`
invocation creates the StepSequence afresh, replacing any prior sequence, and
no call leaves a prior sequence in place.  But `viterbi` never assigns
`self.steps`: after identical `viterbi("g")` invocations the engine still
holds whatever sequence the earlier `forward` left — length 2 after
`forward("r")`, length 3 after `forward("rg")` — the prior sequence is left
in place, not replaced. -/
theorem viterbi_leaves_steps_in_place :
    (viterbiRun hmmAfterF1 ['g']).1 = hmmAfterF1 ∧
      (viterbiRun hmmAfterF1 ['g']).1.steps.length = 2 ∧
      (viterbiRun hmmAfterF2 ['g']).1.steps.length = 3 :=
  ⟨rfl, by decide, by decide⟩
